import Mathlib

/-!
# Verification of `phystone/find_pairs.py`

A shallow embedding of the two matching algorithms of the module:

* `find_ads_slab_pairs` — matches atoms between two structures by comparing
  each atom's Euclidean distance to four fixed reference points;
* `find_symmetric_pairs` — pairs atoms of a single structure whose
  displacement vectors from the center of mass are mutual negatives.

Positions are modelled as exact rationals.  The source stores each distance
as `sqrt` of a rational radicand and compares `|sqrt A - sqrt B| <= tol`;
here every distance is represented by its (rational) radicand and the
comparison is carried out by the decidable predicate `sqrtDiffLe`, which is
proved equivalent to the source's comparison of real square roots
(`sqrtDiffLe_iff_real`) whenever the tolerance is nonnegative.
-/

namespace FindPairs

/-- An ASE atom, as the module uses it: an integer `index` and a 3-component
`position` (`s_loc.index`, `s_loc.position[0..2]`). -/
structure Atom where
  index : Int
  position : ℚ × ℚ × ℚ
deriving DecidableEq, Repr

/-- The second component of an output pair of `find_ads_slab_pairs`: either a
matched `ads` index or the sentinel character `'n'` the source emits when no
candidate is found. -/
inductive PairToken where
  | idx : Int → PairToken
  | n : PairToken
deriving DecidableEq, Repr

/-- Squared distance to the origin `(0,0,0)`: the radicand of `distance_0`,
`sqrt(p[0]**2 + p[1]**2 + p[2]**2)`. -/
def refDistSq0 (p : ℚ × ℚ × ℚ) : ℚ :=
  p.1 ^ 2 + p.2.1 ^ 2 + p.2.2 ^ 2

/-- Squared distance to `(10,10,0)`: the radicand of `distance_1`,
`sqrt((p[0]-10)**2 + (p[1]-10)**2 + p[2]**2)`. -/
def refDistSq1 (p : ℚ × ℚ × ℚ) : ℚ :=
  (p.1 - 10) ^ 2 + (p.2.1 - 10) ^ 2 + p.2.2 ^ 2

/-- Squared distance to `(0,10,0)`: the radicand of `distance_2`,
`sqrt((p[0]-0)**2 + (p[1]-10)**2 + p[2]**2)`. -/
def refDistSq2 (p : ℚ × ℚ × ℚ) : ℚ :=
  (p.1 - 0) ^ 2 + (p.2.1 - 10) ^ 2 + p.2.2 ^ 2

/-- Squared distance to `(10,0,0)`: the radicand of `distance_3`,
`sqrt((p[0]-10)**2 + (p[1]-0)**2 + p[2]**2)`. -/
def refDistSq3 (p : ℚ × ℚ × ℚ) : ℚ :=
  (p.1 - 10) ^ 2 + (p.2.1 - 0) ^ 2 + p.2.2 ^ 2

/-- Decidable rendering of the source's comparison
`abs(sqrt A - sqrt B) <= t` on the (nonnegative) radicands `A`, `B`:
`|√A - √B| ≤ t  ↔  A + B - t² ≤ 2√(AB)`, and the right inequality holds iff
its left side is nonpositive or both sides squared compare.  The equivalence
with the real comparison is `sqrtDiffLe_iff_real`. -/
def sqrtDiffLe (A B t : ℚ) : Bool :=
  decide (A + B - t ^ 2 ≤ 0) || decide ((A + B - t ^ 2) ^ 2 ≤ 4 * (A * B))

/-- One row of `slab_positions` / `ads_positions`:
`[index, distance_0, distance_1, distance_2, distance_3]`, with each distance
represented by its squared radicand (`distance_k = sqrt dsqk`). -/
structure FingerRow where
  index : Int
  dsq0 : ℚ
  dsq1 : ℚ
  dsq2 : ℚ
  dsq3 : ℚ
deriving DecidableEq, Repr

/-- Builds the fingerprint row of one atom, as both loops of the source do. -/
def fingerRow (a : Atom) : FingerRow :=
  { index := a.index
    dsq0 := refDistSq0 a.position
    dsq1 := refDistSq1 a.position
    dsq2 := refDistSq2 a.position
    dsq3 := refDistSq3 a.position }

/-- The candidate test of the inner loop: the source compares row slots 1–4,
i.e. all four distances `distance_0 … distance_3`, each within
`difference_tol`. -/
def matchesWithin (tol : ℚ) (s_loc a_loc : FingerRow) : Bool :=
  sqrtDiffLe s_loc.dsq0 a_loc.dsq0 tol &&
  sqrtDiffLe s_loc.dsq1 a_loc.dsq1 tol &&
  sqrtDiffLe s_loc.dsq2 a_loc.dsq2 tol &&
  sqrtDiffLe s_loc.dsq3 a_loc.dsq3 tol

/-- One iteration of the outer loop of `find_ads_slab_pairs`: build the
candidate list `mult` (the matching `ads` indices, in `ads` order; the two
fingerprint differences the source also records in each `mult` entry are
dead values, never read, and are omitted), fall back to the sentinel when
`mult` is empty, and emit `[s_loc[0], mult[0][0]]`. -/
def pairEntry (tol : ℚ) (ads_positions : List FingerRow) (s_loc : FingerRow) :
    Int × PairToken :=
  match (ads_positions.filter (fun a_loc => matchesWithin tol s_loc a_loc)).map
      FingerRow.index with
  | [] => (s_loc.index, PairToken.n)
  | m :: _ => (s_loc.index, PairToken.idx m)

/-- `find_ads_slab_pairs(slab, ads, difference_tol=0.3)`: fingerprints both
structures against the four reference points and pairs each `slab` atom with
the first `ads` atom whose four distances all lie within `difference_tol`. -/
def find_ads_slab_pairs (slab ads : List Atom) (difference_tol : ℚ := 3 / 10) :
    List (Int × PairToken) :=
  let slab_positions := slab.map fingerRow
  let ads_positions := ads.map fingerRow
  slab_positions.map (pairEntry difference_tol ads_positions)

/-- The capability surface `find_symmetric_pairs` needs from the external ASE
atoms object: per-index position lookup (`slab[dex].position`) and the
mass-weighted center of mass (`slab.get_center_of_mass()`), both supplied by
the collaborator and therefore modelled as data. -/
structure AtomsObj where
  pos : Int → ℚ × ℚ × ℚ
  get_center_of_mass : ℚ × ℚ × ℚ

/-- `numpy.isclose` with its default tolerances
(`rtol = 1e-05`, `atol = 1e-08`): `|a - b| ≤ atol + rtol * |b|`. -/
def isclose (a b : ℚ) : Bool :=
  decide (|a - b| ≤ 1 / 100000000 + (1 / 100000) * |b|)

/-- The displacement vector stored for index `dex`:
`slab[dex].position - center_of_mass`, componentwise. -/
def displacement (slab : AtomsObj) (dex : Int) : ℚ × ℚ × ℚ :=
  ((slab.pos dex).1 - slab.get_center_of_mass.1,
   (slab.pos dex).2.1 - slab.get_center_of_mass.2.1,
   (slab.pos dex).2.2 - slab.get_center_of_mass.2.2)

/-- The symmetry test of the nested loop: each coordinate of the first
displacement is `isclose` to the negation of the corresponding coordinate of
the second. -/
def symClose (d1 d2 : ℚ × ℚ × ℚ) : Bool :=
  isclose d1.1 (d2.1 * -1) &&
  isclose d1.2.1 (d2.2.1 * -1) &&
  isclose d1.2.2 (d2.2.2 * -1)

/-- Python-dict insertion on an association list: an existing key keeps its
position and gets the new value (later writes win), a new key is appended. -/
def dictInsert {V : Type} (d : List (Int × V)) (k : Int) (v : V) :
    List (Int × V) :=
  if d.any (fun p => decide (p.1 = k)) then
    d.map (fun p => if p.1 = k then (k, v) else p)
  else
    d ++ [(k, v)]

/-- Builds the dict `{k : f k for k in ks}` by repeated insertion, as the
`for dex in atom_index_set` loops do. -/
def dictOfList {V : Type} (f : Int → V) (ks : List Int) : List (Int × V) :=
  ks.foldl (fun d k => dictInsert d k (f k)) []

/-- One step of collecting a dict's key list: a seen key is dropped, a new
key is appended (first-insertion order, as a Python dict iterates). -/
def keyStep (acc : List Int) (k : Int) : List Int :=
  if k ∈ acc then acc else acc ++ [k]

/-- The key list of the dict built from `ks`: the distinct elements of `ks`
in first-occurrence order. -/
def dictKeys (ks : List Int) : List Int :=
  ks.foldl keyStep []

/-- Python-dict lookup on the association-list model. -/
def dictLookup {V : Type} (d : List (Int × V)) (k : Int) : Option V :=
  (d.find? (fun p => decide (p.1 = k))).map Prod.snd

/-- `find_symmetric_pairs(slab, atom_index_set_1, atom_index_set_2)`: store
each index's displacement from the center of mass in a dict per set, then
emit `[first_dex, second_dex]` for every dict-key pair whose displacements
are coordinatewise approximate negations, in nested iteration order. -/
def find_symmetric_pairs (slab : AtomsObj)
    (atom_index_set_1 atom_index_set_2 : List Int) : List (Int × Int) :=
  let distances_1 := dictOfList (displacement slab) atom_index_set_1
  let distances_2 := dictOfList (displacement slab) atom_index_set_2
  distances_1.flatMap (fun p1 =>
    (distances_2.filter (fun p2 => symClose p1.2 p2.2)).map
      (fun p2 => (p1.1, p2.1)))

/-! ## The `sqrtDiffLe` bridge: the decidable predicate agrees with the
source's comparison of real square roots. -/

lemma abs_sub_le_of_sq_le_sq (x y t : ℝ) (ht : 0 ≤ t)
    (h : (x - y) ^ 2 ≤ t ^ 2) : |x - y| ≤ t := by
  calc |x - y| = Real.sqrt ((x - y) ^ 2) := (Real.sqrt_sq_eq_abs _).symm
    _ ≤ Real.sqrt (t ^ 2) := Real.sqrt_le_sqrt h
    _ = t := Real.sqrt_sq ht

/-- The predicate `sqrtDiffLe` decides exactly the comparison the source
performs on the square roots of the radicands, for a nonnegative tolerance. -/
theorem sqrtDiffLe_iff_real (A B t : ℚ) (hA : 0 ≤ A) (hB : 0 ≤ B)
    (ht : 0 ≤ t) :
    sqrtDiffLe A B t = true ↔
      |Real.sqrt (A : ℝ) - Real.sqrt (B : ℝ)| ≤ (t : ℝ) := by
  have hA' : (0 : ℝ) ≤ (A : ℝ) := by exact_mod_cast hA
  have hB' : (0 : ℝ) ≤ (B : ℝ) := by exact_mod_cast hB
  have ht' : (0 : ℝ) ≤ (t : ℝ) := by exact_mod_cast ht
  have ha2 : Real.sqrt (A : ℝ) ^ 2 = (A : ℝ) := Real.sq_sqrt hA'
  have hb2 : Real.sqrt (B : ℝ) ^ 2 = (B : ℝ) := Real.sq_sqrt hB'
  have ha0 : (0 : ℝ) ≤ Real.sqrt (A : ℝ) := Real.sqrt_nonneg _
  have hb0 : (0 : ℝ) ≤ Real.sqrt (B : ℝ) := Real.sqrt_nonneg _
  have hab0 : (0 : ℝ) ≤ Real.sqrt (A : ℝ) * Real.sqrt (B : ℝ) :=
    mul_nonneg ha0 hb0
  rw [sqrtDiffLe, Bool.or_eq_true, decide_eq_true_eq, decide_eq_true_eq]
  constructor
  · rintro (h | h)
    · have h' : (A : ℝ) + (B : ℝ) - (t : ℝ) ^ 2 ≤ 0 := by exact_mod_cast h
      exact abs_sub_le_of_sq_le_sq _ _ _ ht' (by nlinarith)
    · have h' : ((A : ℝ) + (B : ℝ) - (t : ℝ) ^ 2) ^ 2 ≤
          4 * ((A : ℝ) * (B : ℝ)) := by exact_mod_cast h
      have h4 : |(A : ℝ) + (B : ℝ) - (t : ℝ) ^ 2| ≤
          Real.sqrt (4 * ((A : ℝ) * (B : ℝ))) := by
        rw [← Real.sqrt_sq_eq_abs]
        exact Real.sqrt_le_sqrt h'
      have h5 : Real.sqrt (4 * ((A : ℝ) * (B : ℝ))) =
          2 * (Real.sqrt (A : ℝ) * Real.sqrt (B : ℝ)) := by
        rw [show (4 : ℝ) * ((A : ℝ) * (B : ℝ)) =
          (2 * (Real.sqrt (A : ℝ) * Real.sqrt (B : ℝ))) ^ 2 by nlinarith]
        exact Real.sqrt_sq (by positivity)
      have h2ab : (A : ℝ) + (B : ℝ) - (t : ℝ) ^ 2 ≤
          2 * (Real.sqrt (A : ℝ) * Real.sqrt (B : ℝ)) := by
        have := le_abs_self ((A : ℝ) + (B : ℝ) - (t : ℝ) ^ 2)
        rw [h5] at h4
        linarith
      exact abs_sub_le_of_sq_le_sq _ _ _ ht' (by nlinarith)
  · intro h
    have h1 := abs_le.mp h
    have key : (Real.sqrt (A : ℝ) - Real.sqrt (B : ℝ)) ^ 2 ≤ (t : ℝ) ^ 2 := by
      nlinarith [h1.1, h1.2]
    rcases le_or_lt (A + B - t ^ 2) 0 with hc | hc
    · exact Or.inl hc
    · refine Or.inr ?_
      have hc' : (0 : ℝ) < (A : ℝ) + (B : ℝ) - (t : ℝ) ^ 2 := by
        exact_mod_cast hc
      have h2ab : (A : ℝ) + (B : ℝ) - (t : ℝ) ^ 2 ≤
          2 * (Real.sqrt (A : ℝ) * Real.sqrt (B : ℝ)) := by nlinarith
      have goal' : ((A : ℝ) + (B : ℝ) - (t : ℝ) ^ 2) ^ 2 ≤
          4 * ((A : ℝ) * (B : ℝ)) := by nlinarith
      exact_mod_cast goal'

lemma refDistSq0_nonneg (p : ℚ × ℚ × ℚ) : 0 ≤ refDistSq0 p := by
  rw [refDistSq0]; positivity

lemma refDistSq1_nonneg (p : ℚ × ℚ × ℚ) : 0 ≤ refDistSq1 p := by
  rw [refDistSq1]; positivity

lemma refDistSq2_nonneg (p : ℚ × ℚ × ℚ) : 0 ≤ refDistSq2 p := by
  rw [refDistSq2]; positivity

lemma refDistSq3_nonneg (p : ℚ × ℚ × ℚ) : 0 ≤ refDistSq3 p := by
  rw [refDistSq3]; positivity

/-- Comparing a radicand with itself always succeeds. -/
lemma sqrtDiffLe_self (A t : ℚ) (hA : 0 ≤ A) : sqrtDiffLe A A t = true := by
  rw [sqrtDiffLe, Bool.or_eq_true, decide_eq_true_eq, decide_eq_true_eq]
  rcases le_or_lt (A + A - t ^ 2) 0 with h | h
  · exact Or.inl h
  · exact Or.inr (by nlinarith [sq_nonneg t])

/-- An atom at the same position always passes the candidate test. -/
lemma matchesWithin_of_pos_eq (tol : ℚ) (s a : Atom)
    (h : a.position = s.position) :
    matchesWithin tol (fingerRow s) (fingerRow a) = true := by
  simp [matchesWithin, fingerRow, h, sqrtDiffLe_self, refDistSq0_nonneg,
    refDistSq1_nonneg, refDistSq2_nonneg, refDistSq3_nonneg]

/-! ## Structural lemmas about `find_ads_slab_pairs`. -/

lemma pairEntry_fst (tol : ℚ) (rows : List FingerRow) (s_loc : FingerRow) :
    (pairEntry tol rows s_loc).1 = s_loc.index := by
  unfold pairEntry
  split <;> rfl

lemma find_ads_length (slab ads : List Atom) (tol : ℚ) :
    (find_ads_slab_pairs slab ads tol).length = slab.length := by
  simp [find_ads_slab_pairs]

lemma find_ads_getElem (slab ads : List Atom) (tol : ℚ) (k : ℕ)
    (hk : k < slab.length) :
    (find_ads_slab_pairs slab ads tol)[k]? =
      some (pairEntry tol (ads.map fingerRow) (fingerRow (slab.get ⟨k, hk⟩))) := by
  simp [find_ads_slab_pairs, List.getElem?_map, List.getElem?_eq_getElem hk]

/-- Each output entry carries the slab atom's own index, in order. -/
lemma find_ads_map_fst (slab ads : List Atom) (tol : ℚ) :
    (find_ads_slab_pairs slab ads tol).map Prod.fst = slab.map Atom.index := by
  simp only [find_ads_slab_pairs, List.map_map]
  refine List.map_congr_left fun a _ => ?_
  simp [pairEntry_fst, fingerRow]

/-- Entry shape when the candidate list `mult` is empty. -/
lemma pairEntry_of_no_match (tol : ℚ) (rows : List FingerRow)
    (s_loc : FingerRow) (h : ∀ r ∈ rows, matchesWithin tol s_loc r = false) :
    pairEntry tol rows s_loc = (s_loc.index, PairToken.n) := by
  have hfil : rows.filter (fun a_loc => matchesWithin tol s_loc a_loc) = [] := by
    rw [List.filter_eq_nil_iff]
    intro a ha
    simp [h a ha]
  rw [pairEntry, hfil]
  rfl

/-- Entry shape when the candidate list starts with `r`. -/
lemma pairEntry_of_head (tol : ℚ) (rows : List FingerRow) (s_loc r : FingerRow)
    (tl : List FingerRow)
    (h : rows.filter (fun a_loc => matchesWithin tol s_loc a_loc) = r :: tl) :
    pairEntry tol rows s_loc = (s_loc.index, PairToken.idx r.index) := by
  rw [pairEntry, h]
  rfl

/-- The first element of a list satisfying `p`, when everything before it
fails `p`, heads the filtered list. -/
lemma filter_eq_get_cons_of_first {α : Type} (p : α → Bool) :
    ∀ (l : List α) (j : ℕ) (hj : j < l.length),
      p (l.get ⟨j, hj⟩) = true →
      (∀ i (hi : i < j), p (l.get ⟨i, Nat.lt_trans hi hj⟩) = false) →
      ∃ tl, l.filter p = l.get ⟨j, hj⟩ :: tl
  | a :: l, 0, _, hp, _ => by
    refine ⟨l.filter p, ?_⟩
    simpa [List.filter_cons] using hp
  | a :: l, j + 1, hj, hp, hbefore => by
    have ha : p a = false := hbefore 0 (Nat.succ_pos j)
    have hj' : j < l.length := Nat.lt_of_succ_lt_succ hj
    have hp' : p (l.get ⟨j, hj'⟩) = true := hp
    obtain ⟨tl, htl⟩ := filter_eq_get_cons_of_first p l j hj' hp'
      (fun i hi => hbefore (i + 1) (Nat.succ_lt_succ hi))
    exact ⟨tl, by simpa [List.filter_cons, ha] using htl⟩

/-- A nonempty filter starts with an element of the list satisfying the
predicate. -/
lemma filter_head_spec {α : Type} (p : α → Bool) (l : List α)
    (h : l.filter p ≠ []) :
    ∃ r tl, l.filter p = r :: tl ∧ r ∈ l ∧ p r = true := by
  rcases hfil : l.filter p with _ | ⟨r, tl⟩
  · exact absurd hfil h
  · have hr : r ∈ l.filter p := by rw [hfil]; exact List.mem_cons_self r tl
    rw [List.mem_filter] at hr
    exact ⟨r, tl, rfl, hr.1, hr.2⟩

/-! ## The dict model: building `{k : f k for k in ks}` collapses to a map
over the distinct keys in first-insertion order. -/

lemma any_map_key {V : Type} (f : Int → V) (k : Int) (acc : List Int) :
    ((acc.map (fun x => (x, f x))).any (fun p => decide (p.1 = k))) =
      decide (k ∈ acc) := by
  induction acc with
  | nil => simp
  | cons a t ih =>
    by_cases h : a = k
    · subst h
      simp
    · have hk : ¬k = a := fun hh => h hh.symm
      simp [h, hk, ih]

lemma map_replace_id {V : Type} (f : Int → V) (k : Int) (acc : List Int) :
    (acc.map (fun x => (x, f x))).map
        (fun p => if p.1 = k then (k, f k) else p) =
      acc.map (fun x => (x, f x)) := by
  rw [List.map_map]
  refine List.map_congr_left fun x _ => ?_
  by_cases h : x = k
  · simp [h]
  · simp [h]

lemma dictInsert_map {V : Type} (f : Int → V) (k : Int) (acc : List Int) :
    dictInsert (acc.map (fun x => (x, f x))) k (f k) =
      (keyStep acc k).map (fun x => (x, f x)) := by
  rw [dictInsert, keyStep, any_map_key]
  by_cases h : k ∈ acc
  · rw [if_pos (by simpa using h), if_pos h]
    exact map_replace_id f k acc
  · rw [if_neg (by simpa using h), if_neg h]
    simp [List.map_append]

lemma foldl_dictInsert {V : Type} (f : Int → V) (ks : List Int) :
    ∀ acc : List Int,
      List.foldl (fun d k => dictInsert d k (f k))
          (acc.map (fun x => (x, f x))) ks =
        (List.foldl keyStep acc ks).map (fun x => (x, f x)) := by
  induction ks with
  | nil => intro acc; rfl
  | cons k ks ih =>
    intro acc
    rw [List.foldl_cons, List.foldl_cons, dictInsert_map]
    exact ih _

/-- The dict built by the displacement loops equals the map of the stored
value function over the distinct keys in first-insertion order. -/
lemma dictOfList_eq {V : Type} (f : Int → V) (ks : List Int) :
    dictOfList f ks = (dictKeys ks).map (fun x => (x, f x)) := by
  have h := foldl_dictInsert f ks []
  simpa [dictOfList, dictKeys] using h

lemma mem_foldl_keyStep (ks : List Int) :
    ∀ (acc : List Int) (x : Int),
      x ∈ List.foldl keyStep acc ks ↔ x ∈ acc ∨ x ∈ ks := by
  induction ks with
  | nil => simp
  | cons k ks ih =>
    intro acc x
    rw [List.foldl_cons, ih, keyStep]
    by_cases h : k ∈ acc
    · rw [if_pos h]
      constructor
      · rintro (hx | hx)
        · exact Or.inl hx
        · exact Or.inr (List.mem_cons_of_mem _ hx)
      · rintro (hx | hx)
        · exact Or.inl hx
        · rcases List.mem_cons.mp hx with rfl | hx
          · exact Or.inl h
          · exact Or.inr hx
    · rw [if_neg h]
      simp only [List.mem_append, List.mem_singleton, List.mem_cons]
      tauto

lemma nodup_foldl_keyStep (ks : List Int) :
    ∀ acc : List Int, acc.Nodup → (List.foldl keyStep acc ks).Nodup := by
  induction ks with
  | nil => exact fun _ h => h
  | cons k ks ih =>
    intro acc hacc
    rw [List.foldl_cons]
    apply ih
    rw [keyStep]
    by_cases h : k ∈ acc
    · rwa [if_pos h]
    · rw [if_neg h]
      simp [List.nodup_append, hacc, h]

lemma dictKeys_nodup (ks : List Int) : (dictKeys ks).Nodup :=
  nodup_foldl_keyStep ks [] List.nodup_nil

lemma mem_dictKeys (ks : List Int) (x : Int) : x ∈ dictKeys ks ↔ x ∈ ks := by
  have h := mem_foldl_keyStep ks [] x
  simpa [dictKeys] using h

lemma dictOfList_keys {V : Type} (f : Int → V) (ks : List Int) :
    (dictOfList f ks).map Prod.fst = dictKeys ks := by
  rw [dictOfList_eq, List.map_map]
  rw [show (Prod.fst ∘ fun x : Int => (x, f x)) = id from rfl, List.map_id]

lemma dictOfList_snd {V : Type} (f : Int → V) (ks : List Int) :
    ∀ p ∈ dictOfList f ks, p.2 = f p.1 := by
  rw [dictOfList_eq]
  intro p hp
  rcases List.mem_map.mp hp with ⟨x, _, rfl⟩
  rfl

lemma find?_map_key {V : Type} (f : Int → V) (k : Int) (l : List Int) :
    ((l.map (fun x => (x, f x))).find? (fun p => decide (p.1 = k))) =
      if k ∈ l then some (k, f k) else none := by
  induction l with
  | nil => simp
  | cons a t ih =>
    rw [List.map_cons]
    by_cases h : a = k
    · subst h
      rw [List.find?_cons_of_pos _ (by simp)]
      simp
    · have hk : ¬k = a := fun hh => h hh.symm
      rw [List.find?_cons_of_neg _ (by simp [h]), ih]
      simp [List.mem_cons, hk]

/-- Dict lookup on the built table: the value function at the key, when the
key occurs in the input sequence. -/
lemma dictLookup_dictOfList {V : Type} (f : Int → V) (ks : List Int)
    (k : Int) :
    dictLookup (dictOfList f ks) k = if k ∈ ks then some (f k) else none := by
  rw [dictLookup, dictOfList_eq, find?_map_key]
  by_cases h : k ∈ dictKeys ks
  · rw [if_pos h, if_pos ((mem_dictKeys ks k).mp h)]
    rfl
  · rw [if_neg h, if_neg (fun hh => h ((mem_dictKeys ks k).mpr hh))]
    rfl

lemma find?_map_replace {V : Type} (k : Int) (v : V) (d : List (Int × V)) :
    d.any (fun p => decide (p.1 = k)) = true →
      (d.map (fun p => if p.1 = k then (k, v) else p)).find?
        (fun p => decide (p.1 = k)) = some (k, v) := by
  induction d with
  | nil => intro h; simp at h
  | cons p t ih =>
    intro h
    rw [List.map_cons]
    by_cases hp : p.1 = k
    · rw [if_pos hp, List.find?_cons_of_pos _ (by simp)]
    · rw [if_neg hp, List.find?_cons_of_neg _ (by simp [hp])]
      apply ih
      simpa [hp] using h

lemma find?_no_match {V : Type} (k : Int) (v : V) (d : List (Int × V)) :
    d.any (fun p => decide (p.1 = k)) = false →
      (d ++ [(k, v)]).find? (fun p => decide (p.1 = k)) = some (k, v) := by
  induction d with
  | nil => intro _; simp
  | cons p t ih =>
    intro h
    rw [List.any_cons, Bool.or_eq_false_iff] at h
    rw [List.cons_append, List.find?_cons_of_neg _ (by simp [h.1])]
    exact ih h.2

/-- Python-dict semantics of the model: after inserting `(k, v)`, looking up
`k` yields the value written last. -/
lemma dictLookup_insert_self {V : Type} (d : List (Int × V)) (k : Int)
    (v : V) : dictLookup (dictInsert d k v) k = some v := by
  rw [dictInsert]
  by_cases h : d.any (fun p => decide (p.1 = k)) = true
  · rw [if_pos h, dictLookup, find?_map_replace k v d h]
    rfl
  · rw [Bool.not_eq_true] at h
    rw [if_neg (by simp [h]), dictLookup, find?_no_match k v d h]
    rfl

/-! ## Characterization of `find_symmetric_pairs`. -/

lemma filter_map_pair {α β : Type} (f : α → β) (p : β → Bool) (l : List α) :
    (l.map f).filter p = (l.filter (fun x => p (f x))).map f := by
  induction l with
  | nil => rfl
  | cons a t ih =>
    by_cases h : p (f a) = true
    · simp [List.filter_cons, h, ih]
    · rw [Bool.not_eq_true] at h
      simp [List.filter_cons, h, ih]

lemma flatMap_map_list {α β γ : Type} (f : α → β) (F : β → List γ)
    (l : List α) : (l.map f).flatMap F = l.flatMap (fun x => F (f x)) := by
  induction l with
  | nil => rfl
  | cons a t ih => simp [ih]

/-- `find_symmetric_pairs` is the tolerance-filtered cross product of the two
dicts' key lists, in nested iteration order. -/
lemma find_symmetric_pairs_eq (slab : AtomsObj) (s1 s2 : List Int) :
    find_symmetric_pairs slab s1 s2 =
      (dictKeys s1).flatMap (fun i =>
        ((dictKeys s2).filter (fun j =>
          symClose (displacement slab i) (displacement slab j))).map
          (fun j => (i, j))) := by
  rw [find_symmetric_pairs]
  simp only [dictOfList_eq, flatMap_map_list, filter_map_pair, List.map_map]
  rfl

lemma isclose_self (a : ℚ) : isclose a a = true := by
  rw [isclose, decide_eq_true_eq, sub_self, abs_zero]
  positivity

/-- An exact negation passes all three coordinatewise `isclose` tests. -/
lemma symClose_of_neg (d1 d2 : ℚ × ℚ × ℚ)
    (h : d1 = (-d2.1, -d2.2.1, -d2.2.2)) : symClose d1 d2 = true := by
  subst h
  rw [symClose]
  have hm : ∀ x : ℚ, x * -1 = -x := fun x => by ring
  simp [hm, isclose_self]

/-! ## The claims. -/

/-- **C3**: the result of `find_ads_slab_pairs` has exactly one entry per
atom of `slab`, even when some or all atoms are unmatched, and the k-th
entry's first element is the index of the k-th atom of `slab` in original
iteration order. -/
theorem claim_C3 (slab ads : List Atom) (tol : ℚ) :
    (find_ads_slab_pairs slab ads tol).length = slab.length ∧
    (find_ads_slab_pairs slab ads tol).map Prod.fst = slab.map Atom.index :=
  ⟨find_ads_length slab ads tol, find_ads_map_fst slab ads tol⟩

/-- **C4**: an unmatched atom never raises an error: when a slab atom has no
candidate within tolerance its entry carries the sentinel token; an empty
`ads` yields the sentinel in every entry, and an empty `slab` yields the
empty list. -/
theorem claim_C4 (slab ads : List Atom) (tol : ℚ) :
    (∀ k (hk : k < slab.length),
      (∀ a ∈ ads,
        matchesWithin tol (fingerRow (slab.get ⟨k, hk⟩)) (fingerRow a) =
          false) →
      (find_ads_slab_pairs slab ads tol)[k]? =
        some ((slab.get ⟨k, hk⟩).index, PairToken.n)) ∧
    (ads = [] → ∀ p ∈ find_ads_slab_pairs slab ads tol, p.2 = PairToken.n) ∧
    (slab = [] → find_ads_slab_pairs slab ads tol = []) := by
  refine ⟨?_, ?_, ?_⟩
  · intro k hk hnone
    rw [find_ads_getElem slab ads tol k hk]
    congr 1
    apply pairEntry_of_no_match
    intro r hr
    rcases List.mem_map.mp hr with ⟨a, ha, rfl⟩
    exact hnone a ha
  · rintro rfl p hp
    simp only [find_ads_slab_pairs, List.map_nil] at hp
    rcases List.mem_map.mp hp with ⟨r, _, rfl⟩
    rw [pairEntry_of_no_match tol [] r (fun r hr => absurd hr
      (List.not_mem_nil r))]
  · rintro rfl
    rfl

/-- **C5**: a slab atom with at least one candidate is paired with the first
candidate in `ads` iteration order, with no further tie-break; in
particular the spec's scenario produces `[[5, 9]]`. -/
theorem claim_C5 :
    (∀ (slab ads : List Atom) (tol : ℚ) (k : ℕ) (hk : k < slab.length)
      (j : ℕ) (hj : j < ads.length),
      matchesWithin tol (fingerRow (slab.get ⟨k, hk⟩))
        (fingerRow (ads.get ⟨j, hj⟩)) = true →
      (∀ i (hi : i < j),
        matchesWithin tol (fingerRow (slab.get ⟨k, hk⟩))
          (fingerRow (ads.get ⟨i, Nat.lt_trans hi hj⟩)) = false) →
      (find_ads_slab_pairs slab ads tol)[k]? =
        some ((slab.get ⟨k, hk⟩).index,
          PairToken.idx ((ads.get ⟨j, hj⟩).index))) ∧
    find_ads_slab_pairs [Atom.mk 5 (0, 0, 0)]
      [Atom.mk 9 (0, 0, 0), Atom.mk 10 (5, 5, 5)] (3 / 10) =
      [(5, PairToken.idx 9)] := by
  constructor
  · intro slab ads tol k hk j hj hyes hbefore
    rw [find_ads_getElem slab ads tol k hk]
    have hj' : j < (ads.map fingerRow).length := by simpa using hj
    have hget : (ads.map fingerRow).get ⟨j, hj'⟩ = fingerRow (ads.get ⟨j, hj⟩) := by
      simp
    obtain ⟨tl, htl⟩ := filter_eq_get_cons_of_first
      (fun a => matchesWithin tol (fingerRow (slab.get ⟨k, hk⟩)) a)
      (ads.map fingerRow) j hj'
      (by rw [hget]; exact hyes)
      (by
        intro i hi
        have : (ads.map fingerRow).get ⟨i, Nat.lt_trans hi hj'⟩ =
            fingerRow (ads.get ⟨i, Nat.lt_trans hi hj⟩) := by simp
        rw [this]
        exact hbefore i hi)
    rw [hget] at htl
    rw [pairEntry_of_head tol _ _ _ tl htl]
    rfl
  · with_unfolding_all decide

/-- **C9**: violating the precondition `len(ads) >= len(slab)` never makes
`find_ads_slab_pairs` fail: even with `ads` strictly smaller than `slab` the
result keeps its shape — one entry per slab atom — and each entry's second
element is the sentinel or the index of some `ads` atom. -/
theorem claim_C9 (slab ads : List Atom) (tol : ℚ)
    (h : ads.length < slab.length) :
    (find_ads_slab_pairs slab ads tol).length = slab.length ∧
    ∀ p ∈ find_ads_slab_pairs slab ads tol,
      p.2 = PairToken.n ∨ ∃ a ∈ ads, p.2 = PairToken.idx a.index := by
  refine ⟨find_ads_length slab ads tol, ?_⟩
  intro p hp
  simp only [find_ads_slab_pairs] at hp
  rcases List.mem_map.mp hp with ⟨r, _, rfl⟩
  rcases hfil : (ads.map fingerRow).filter
      (fun a_loc => matchesWithin tol r a_loc) with _ | ⟨c, tl⟩
  · rw [pairEntry_of_no_match tol _ r
      (fun x hx => by
        have := List.filter_eq_nil_iff.mp hfil x hx
        simpa using this)]
    exact Or.inl rfl
  · rw [pairEntry_of_head tol _ r c tl hfil]
    refine Or.inr ?_
    have hc : c ∈ (ads.map fingerRow).filter
        (fun a_loc => matchesWithin tol r a_loc) := by
      rw [hfil]
      exact List.mem_cons_self c tl
    rcases List.mem_map.mp (List.mem_filter.mp hc).1 with ⟨a, ha, rfl⟩
    exact ⟨a, ha, rfl⟩

/-- Witness for `claim_C9` at `slab` of one atom and empty `ads`. -/
theorem claim_C9_witness :
    (find_ads_slab_pairs [Atom.mk 0 (0, 0, 0)] [] (3 / 10)).length =
        [Atom.mk 0 ((0 : ℚ), 0, 0)].length ∧
      ∀ p ∈ find_ads_slab_pairs [Atom.mk 0 (0, 0, 0)] [] (3 / 10),
        p.2 = PairToken.n ∨
          ∃ a ∈ ([] : List Atom), p.2 = PairToken.idx a.index :=
  claim_C9 [Atom.mk 0 (0, 0, 0)] [] (3 / 10) (by simp)

/-- Witness for `claim_C4` at a slab atom with no candidate in `ads`. -/
theorem claim_C4_witness :
    (find_ads_slab_pairs [Atom.mk 0 (0, 0, 0)] [Atom.mk 1 (5, 5, 5)]
        (3 / 10))[0]? = some (0, PairToken.n) := by
  have h := (claim_C4 [Atom.mk 0 (0, 0, 0)] [Atom.mk 1 (5, 5, 5)]
    (3 / 10)).1 0 (by simp) (by with_unfolding_all decide)
  simpa using h

/-- Witness for `claim_C5` at the spec's scenario. -/
theorem claim_C5_witness :
    (find_ads_slab_pairs [Atom.mk 5 (0, 0, 0)]
        [Atom.mk 9 (0, 0, 0), Atom.mk 10 (5, 5, 5)] (3 / 10))[0]? =
      some (5, PairToken.idx 9) := by
  have h := claim_C5.1 [Atom.mk 5 (0, 0, 0)]
    [Atom.mk 9 (0, 0, 0), Atom.mk 10 (5, 5, 5)] (3 / 10) 0 (by simp) 0
    (by simp) (by with_unfolding_all decide)
    (fun i hi => absurd hi (Nat.not_lt_zero i))
  simpa using h

/-- **C1, counterexample**: slab atom at `(0,0,0)` against ads atom at
`(0,0,1/2)` with the default tolerance `0.3`.  The distance differences to
all three off-origin reference points lie within tolerance, yet the code
does not collect the ads atom as a candidate — the output entry is the
sentinel — because the origin-distance difference (`1/2`) is also compared
and exceeds the tolerance.  This refutes the claim that candidacy depends
only on components 2, 3 and 4. -/
theorem claim_C1_counterexample :
    |Real.sqrt ((refDistSq1 ((0 : ℚ), 0, 0) : ℚ) : ℝ) -
        Real.sqrt ((refDistSq1 ((0 : ℚ), 0, 1 / 2) : ℚ) : ℝ)| ≤ (3 / 10 : ℝ) ∧
    |Real.sqrt ((refDistSq2 ((0 : ℚ), 0, 0) : ℚ) : ℝ) -
        Real.sqrt ((refDistSq2 ((0 : ℚ), 0, 1 / 2) : ℚ) : ℝ)| ≤ (3 / 10 : ℝ) ∧
    |Real.sqrt ((refDistSq3 ((0 : ℚ), 0, 0) : ℚ) : ℝ) -
        Real.sqrt ((refDistSq3 ((0 : ℚ), 0, 1 / 2) : ℚ) : ℝ)| ≤ (3 / 10 : ℝ) ∧
    matchesWithin (3 / 10) (fingerRow (Atom.mk 0 (0, 0, 0)))
      (fingerRow (Atom.mk 1 (0, 0, 1 / 2))) = false ∧
    find_ads_slab_pairs [Atom.mk 0 (0, 0, 0)] [Atom.mk 1 (0, 0, 1 / 2)]
      (3 / 10) = [(0, PairToken.n)] := by
  have hc : (((3 : ℚ) / 10 : ℚ) : ℝ) = (3 / 10 : ℝ) := by norm_num
  refine ⟨?_, ?_, ?_, by with_unfolding_all decide,
    by with_unfolding_all decide⟩
  · have h := (sqrtDiffLe_iff_real (refDistSq1 (0, 0, 0))
      (refDistSq1 (0, 0, 1 / 2)) (3 / 10) (refDistSq1_nonneg _)
      (refDistSq1_nonneg _) (by norm_num)).mp (by with_unfolding_all decide)
    rwa [hc] at h
  · have h := (sqrtDiffLe_iff_real (refDistSq2 (0, 0, 0))
      (refDistSq2 (0, 0, 1 / 2)) (3 / 10) (refDistSq2_nonneg _)
      (refDistSq2_nonneg _) (by norm_num)).mp (by with_unfolding_all decide)
    rwa [hc] at h
  · have h := (sqrtDiffLe_iff_real (refDistSq3 (0, 0, 0))
      (refDistSq3 (0, 0, 1 / 2)) (3 / 10) (refDistSq3_nonneg _)
      (refDistSq3_nonneg _) (by norm_num)).mp (by with_unfolding_all decide)
    rwa [hc] at h

/-- **C1, amended**: an atom `a` of `structureB` is collected as a candidate
for an atom `s` of `structureA` if and only if the absolute difference of
their real distance fingerprints is within tolerance on **all four**
components — the origin distance is compared along with the three off-origin
distances. -/
theorem claim_C1_amended (tol : ℚ) (ht : 0 ≤ tol) (s a : Atom) :
    matchesWithin tol (fingerRow s) (fingerRow a) = true ↔
      (|Real.sqrt ((refDistSq0 s.position : ℚ) : ℝ) -
          Real.sqrt ((refDistSq0 a.position : ℚ) : ℝ)| ≤ (tol : ℝ) ∧
       |Real.sqrt ((refDistSq1 s.position : ℚ) : ℝ) -
          Real.sqrt ((refDistSq1 a.position : ℚ) : ℝ)| ≤ (tol : ℝ) ∧
       |Real.sqrt ((refDistSq2 s.position : ℚ) : ℝ) -
          Real.sqrt ((refDistSq2 a.position : ℚ) : ℝ)| ≤ (tol : ℝ) ∧
       |Real.sqrt ((refDistSq3 s.position : ℚ) : ℝ) -
          Real.sqrt ((refDistSq3 a.position : ℚ) : ℝ)| ≤ (tol : ℝ)) := by
  simp only [matchesWithin, fingerRow, Bool.and_eq_true]
  rw [sqrtDiffLe_iff_real _ _ _ (refDistSq0_nonneg _) (refDistSq0_nonneg _) ht,
    sqrtDiffLe_iff_real _ _ _ (refDistSq1_nonneg _) (refDistSq1_nonneg _) ht,
    sqrtDiffLe_iff_real _ _ _ (refDistSq2_nonneg _) (refDistSq2_nonneg _) ht,
    sqrtDiffLe_iff_real _ _ _ (refDistSq3_nonneg _) (refDistSq3_nonneg _) ht]
  tauto

/-- Witness for `claim_C1_amended` at tolerance `3/10` and two copies of an
atom at the origin. -/
theorem claim_C1_amended_witness :
    (0 : ℚ) ≤ 3 / 10 ∧
    (matchesWithin (3 / 10) (fingerRow (Atom.mk 0 (0, 0, 0)))
        (fingerRow (Atom.mk 0 (0, 0, 0))) = true ↔
      (|Real.sqrt ((refDistSq0 (Atom.mk 0 ((0 : ℚ), 0, 0)).position : ℚ) : ℝ) -
          Real.sqrt ((refDistSq0 (Atom.mk 0 ((0 : ℚ), 0, 0)).position : ℚ) : ℝ)| ≤
            ((3 / 10 : ℚ) : ℝ) ∧
       |Real.sqrt ((refDistSq1 (Atom.mk 0 ((0 : ℚ), 0, 0)).position : ℚ) : ℝ) -
          Real.sqrt ((refDistSq1 (Atom.mk 0 ((0 : ℚ), 0, 0)).position : ℚ) : ℝ)| ≤
            ((3 / 10 : ℚ) : ℝ) ∧
       |Real.sqrt ((refDistSq2 (Atom.mk 0 ((0 : ℚ), 0, 0)).position : ℚ) : ℝ) -
          Real.sqrt ((refDistSq2 (Atom.mk 0 ((0 : ℚ), 0, 0)).position : ℚ) : ℝ)| ≤
            ((3 / 10 : ℚ) : ℝ) ∧
       |Real.sqrt ((refDistSq3 (Atom.mk 0 ((0 : ℚ), 0, 0)).position : ℚ) : ℝ) -
          Real.sqrt ((refDistSq3 (Atom.mk 0 ((0 : ℚ), 0, 0)).position : ℚ) : ℝ)| ≤
            ((3 / 10 : ℚ) : ℝ))) :=
  ⟨by norm_num,
    claim_C1_amended (3 / 10) (by norm_num) (Atom.mk 0 (0, 0, 0))
      (Atom.mk 0 (0, 0, 0))⟩

/-- **C2, counterexample**: `structureB` an exact copy of `structureA`
(identical positions and indices), tolerance `0.3`.  The slab atom of index
1 at `(0, 0, 1/10)` is matched to the ads atom of index 0, which sits at a
different position `(0, 0, 0)` and whose origin-distance fingerprint
component differs by `1/10 ≠ 0` — the first candidate in `ads` order wins,
not the same-position atom.  This refutes the claim that every atom matches
itself or an atom at the same position with zero fingerprint difference. -/
theorem claim_C2_counterexample :
    find_ads_slab_pairs [Atom.mk 0 (0, 0, 0), Atom.mk 1 (0, 0, 1 / 10)]
        [Atom.mk 0 (0, 0, 0), Atom.mk 1 (0, 0, 1 / 10)] (3 / 10) =
      [(0, PairToken.idx 0), (1, PairToken.idx 0)] ∧
    ((0 : ℚ), (0 : ℚ), (1 / 10 : ℚ)) ≠ ((0 : ℚ), (0 : ℚ), (0 : ℚ)) ∧
    |Real.sqrt ((refDistSq0 ((0 : ℚ), 0, 1 / 10) : ℚ) : ℝ) -
        Real.sqrt ((refDistSq0 ((0 : ℚ), 0, 0) : ℚ) : ℝ)| = 1 / 10 := by
  refine ⟨by with_unfolding_all decide, by with_unfolding_all decide, ?_⟩
  have h0 : ((refDistSq0 ((0 : ℚ), 0, 0) : ℚ) : ℝ) = 0 := by
    rw [refDistSq0]
    norm_num
  have h1 : ((refDistSq0 ((0 : ℚ), 0, 1 / 10) : ℚ) : ℝ) = (1 / 10) ^ 2 := by
    rw [refDistSq0]
    push_cast
    norm_num
  rw [h0, h1, Real.sqrt_zero, Real.sqrt_sq (by norm_num)]
  norm_num

/-- **C2, amended**: if `structureB` is an exact positional copy of
`structureA` (identical positions in the same order) and the tolerance is
nonnegative, every atom of `structureA` receives a non-sentinel match: it is
paired with an atom of `structureB` whose whole fingerprint is within
tolerance of its own (the atom at the same position is always a candidate,
but the first candidate in `structureB` order is the one chosen). -/
theorem claim_C2_amended (slab ads : List Atom) (tol : ℚ)
    (hpos : ads.map Atom.position = slab.map Atom.position) (ht : 0 ≤ tol)
    (k : ℕ) (hk : k < slab.length) :
    ∃ a ∈ ads, (find_ads_slab_pairs slab ads tol)[k]? =
        some ((slab.get ⟨k, hk⟩).index, PairToken.idx a.index) ∧
      matchesWithin tol (fingerRow (slab.get ⟨k, hk⟩)) (fingerRow a) =
        true := by
  have hlen : ads.length = slab.length := by
    have h := congrArg List.length hpos
    simpa using h
  have hk' : k < ads.length := by omega
  have hposk : (ads.get ⟨k, hk'⟩).position = (slab.get ⟨k, hk⟩).position := by
    have h2 : (ads.map Atom.position)[k]? = (slab.map Atom.position)[k]? := by
      rw [hpos]
    rw [List.getElem?_map, List.getElem?_map, List.getElem?_eq_getElem hk',
      List.getElem?_eq_getElem hk] at h2
    simpa using h2
  have hcand : matchesWithin tol (fingerRow (slab.get ⟨k, hk⟩))
      (fingerRow (ads.get ⟨k, hk'⟩)) = true :=
    matchesWithin_of_pos_eq tol _ _ hposk
  have hmem : fingerRow (ads.get ⟨k, hk'⟩) ∈ (ads.map fingerRow).filter
      (fun a_loc => matchesWithin tol (fingerRow (slab.get ⟨k, hk⟩)) a_loc) := by
    rw [List.mem_filter]
    exact ⟨List.mem_map_of_mem fingerRow (List.get_mem ads k hk'), hcand⟩
  obtain ⟨r, tl, hfil, hrmem, hrp⟩ := filter_head_spec _ _
    (List.ne_nil_of_mem hmem)
  rcases List.mem_map.mp hrmem with ⟨a, ha, rfl⟩
  refine ⟨a, ha, ?_, hrp⟩
  rw [find_ads_getElem slab ads tol k hk, pairEntry_of_head tol _ _ _ tl hfil]
  rfl

/-- Witness for `claim_C2_amended`: a one-atom slab against an exact
positional copy with a different index. -/
theorem claim_C2_amended_witness :
    ∃ a ∈ [Atom.mk 7 ((0 : ℚ), 0, 0)],
      (find_ads_slab_pairs [Atom.mk 0 (0, 0, 0)] [Atom.mk 7 (0, 0, 0)]
          (3 / 10))[0]? = some (0, PairToken.idx a.index) ∧
      matchesWithin (3 / 10) (fingerRow (Atom.mk 0 (0, 0, 0)))
        (fingerRow a) = true := by
  have h := claim_C2_amended [Atom.mk 0 (0, 0, 0)] [Atom.mk 7 (0, 0, 0)]
    (3 / 10) rfl (by norm_num) 0 (by simp)
  simpa using h

/-- **C6**: the output of `find_symmetric_pairs` is exactly the list of
pairs `(i, j)` of stored keys whose displacements are coordinatewise
approximate negations, in nested iteration order; if no atom of set 2 is a
reflection of any atom of set 1 within tolerance the result is empty; and
an atom may appear in several emitted pairs (witnessed by the concrete
structure in the last conjunct, whose atom 0 pairs with both 1 and 2). -/
theorem claim_C6 :
    (∀ (slab : AtomsObj) (s1 s2 : List Int),
      find_symmetric_pairs slab s1 s2 =
        (dictKeys s1).flatMap (fun i =>
          ((dictKeys s2).filter (fun j =>
            symClose (displacement slab i) (displacement slab j))).map
            (fun j => (i, j)))) ∧
    (∀ (slab : AtomsObj) (s1 s2 : List Int),
      (∀ i ∈ s1, ∀ j ∈ s2,
        symClose (displacement slab i) (displacement slab j) = false) →
      find_symmetric_pairs slab s1 s2 = []) ∧
    find_symmetric_pairs
        (AtomsObj.mk (fun d => if d = 0 then (1, 0, 0) else (-1, 0, 0))
          (0, 0, 0))
        [0] [1, 2] = [(0, 1), (0, 2)] := by
  refine ⟨find_symmetric_pairs_eq, ?_, by with_unfolding_all decide⟩
  intro slab s1 s2 hnone
  rw [find_symmetric_pairs_eq]
  refine List.flatMap_eq_nil_iff.mpr fun i hi => ?_
  rw [List.filter_eq_nil_iff.mpr fun j hj => by
    simp [hnone i ((mem_dictKeys s1 i).mp hi) j ((mem_dictKeys s2 j).mp hj)]]
  rfl

/-- Witness for `claim_C6` at a structure where nothing reflects: both
stored displacements are `(1,0,0)`, so every `isclose` test against the
negation fails and the result is empty. -/
theorem claim_C6_witness :
    find_symmetric_pairs (AtomsObj.mk (fun _ => (1, 0, 0)) (0, 0, 0))
      [0] [1] = [] :=
  claim_C6.2.1 (AtomsObj.mk (fun _ => (1, 0, 0)) (0, 0, 0)) [0] [1]
    (by with_unfolding_all decide)

/-- **C7**: whenever atom `i` of set 1 is exactly the point-reflection of
atom `j` of set 2 through the center of mass, the pair `(i, j)` is emitted;
in particular the spec's scenario yields `[[0, 1]]`. -/
theorem claim_C7 :
    (∀ (slab : AtomsObj) (s1 s2 : List Int) (i j : Int), i ∈ s1 → j ∈ s2 →
      displacement slab i =
        (-(displacement slab j).1, -(displacement slab j).2.1,
          -(displacement slab j).2.2) →
      (i, j) ∈ find_symmetric_pairs slab s1 s2) ∧
    find_symmetric_pairs
        (AtomsObj.mk (fun d => if d = 0 then (1, 2, 3)
          else if d = 1 then (-1, -2, -3) else (0, 0, 0)) (0, 0, 0))
        [0] [1] = [(0, 1)] := by
  constructor
  · intro slab s1 s2 i j hi hj hneg
    rw [find_symmetric_pairs_eq, List.mem_flatMap]
    refine ⟨i, (mem_dictKeys s1 i).mpr hi, ?_⟩
    rw [List.mem_map]
    refine ⟨j, ?_, rfl⟩
    rw [List.mem_filter]
    exact ⟨(mem_dictKeys s2 j).mpr hj, symClose_of_neg _ _ hneg⟩
  · with_unfolding_all decide

/-- Witness for `claim_C7` at the spec's scenario. -/
theorem claim_C7_witness :
    ((0 : Int), (1 : Int)) ∈ find_symmetric_pairs
      (AtomsObj.mk (fun d => if d = 0 then (1, 2, 3)
        else if d = 1 then (-1, -2, -3) else (0, 0, 0)) (0, 0, 0))
      [0] [1] :=
  claim_C7.1
    (AtomsObj.mk (fun d => if d = 0 then (1, 2, 3)
      else if d = 1 then (-1, -2, -3) else (0, 0, 0)) (0, 0, 0))
    [0] [1] 0 1 (by simp) (by simp) (by with_unfolding_all decide)

/-- **C8**: the displacement table holds exactly one entry per distinct
index; the stored value is the displacement of that index (so the value the
final occurrence writes — insertion is last-write-wins, as the generic
third conjunct states); and the table's contents, as a key-to-value map,
depend only on the set of distinct indices in the input sequence. -/
theorem claim_C8 (slab : AtomsObj) (ks : List Int) :
    ((dictOfList (displacement slab) ks).map Prod.fst).Nodup ∧
    (∀ p ∈ dictOfList (displacement slab) ks, p.2 = displacement slab p.1) ∧
    (∀ (d : List (Int × ℚ × ℚ × ℚ)) (k : Int) (v : ℚ × ℚ × ℚ),
      dictLookup (dictInsert d k v) k = some v) ∧
    (∀ ks' : List Int, (∀ x : Int, x ∈ ks ↔ x ∈ ks') → ∀ k : Int,
      dictLookup (dictOfList (displacement slab) ks) k =
        dictLookup (dictOfList (displacement slab) ks') k) := by
  refine ⟨?_, dictOfList_snd _ ks, fun d k v => dictLookup_insert_self d k v,
    ?_⟩
  · rw [dictOfList_keys]
    exact dictKeys_nodup ks
  · intro ks' hmem k
    rw [dictLookup_dictOfList, dictLookup_dictOfList]
    by_cases h : k ∈ ks
    · rw [if_pos h, if_pos ((hmem k).mp h)]
    · rw [if_neg h, if_neg fun hh => h ((hmem k).mpr hh)]

/-- Witness for `claim_C8`: an index sequence with a duplicate gives the
same table lookups as the duplicate-free sequence with the same index set. -/
theorem claim_C8_witness :
    dictLookup (dictOfList
      (displacement (AtomsObj.mk (fun _ => (0, 0, 0)) (0, 0, 0)))
      [0, 1, 0]) 0 =
      dictLookup (dictOfList
        (displacement (AtomsObj.mk (fun _ => (0, 0, 0)) (0, 0, 0)))
        [1, 0]) 0 :=
  (claim_C8 (AtomsObj.mk (fun _ => (0, 0, 0)) (0, 0, 0)) [0, 1, 0]).2.2.2
    [1, 0]
    (by
      intro x
      simp only [List.mem_cons, List.not_mem_nil, or_false]
      tauto)
    0

/-- **C10**: the output of `find_symmetric_pairs` never contains a duplicate
pair, for any structure and any index sequences, repeated indices included:
the cross product ranges over the dicts' keys, which are distinct. -/
theorem claim_C10 (slab : AtomsObj) (s1 s2 : List Int) :
    (find_symmetric_pairs slab s1 s2).Nodup := by
  rw [find_symmetric_pairs_eq, List.nodup_flatMap]
  constructor
  · intro i _
    refine List.Nodup.map (fun a b hab => ?_) ((dictKeys_nodup s2).filter _)
    simpa using hab
  · refine (dictKeys_nodup s1).imp fun hab => ?_
    intro x hxa hxb
    rcases List.mem_map.mp hxa with ⟨ja, _, rfl⟩
    rcases List.mem_map.mp hxb with ⟨jb, _, hEq⟩
    exact hab (congrArg Prod.fst hEq).symm

end FindPairs
